import Mathlib

/-!
Verification of the commit-analysis pipeline in `server/index.js` of the
Github-Commit-Analyzer repository.

The development shallowly embeds the pipeline's pure core: the repo-reference
parser (`parseRepo`), the progress channel registry (`progressSend`,
`subscribe`, `disconnect`), the model-invocation option builder
(`createOpenAIResponse`), the per-commit summarizer's parse-or-fallback step
(`summarizeCommit` together with a JSON parser modelling `JSON.parse`), the
commit collector for both the single-branch and the `__ANY__` branch policies
(`collectSingle`, `collectAny`), the enrichment fetch loop (`enrichFetches`),
and the aggregator's `topAreas` computation (`topAreas`).

JavaScript data reaching these functions is modelled as follows: strings are
`String`, arrays are `List`, the insertion-ordered JS `Map` is an
insertion-ordered association list, optional/absent fields are `Option`,
ISO date strings are compared through a `Nat` timestamp key, and
`Array.prototype.sort` (stable in ES2019+, hence in Node) is modelled by a
stable insertion sort.  Errors thrown by JS functions become `Except.error`.
-/

namespace GCA

/-! ## Character/string utilities modelling the JS primitives used -/

/-- ASCII whitespace test; models the whitespace class stripped by
`String.prototype.trim` (the inputs relevant here are ASCII). -/
def isWsChar (c : Char) : Bool :=
  c = ' ' || c = '\t' || c = '\n' || c = '\r'

/-- `String.prototype.trim`: drop leading and trailing whitespace. -/
def trimStr (s : String) : String :=
  ⟨((s.data.dropWhile isWsChar).reverse.dropWhile isWsChar).reverse⟩

/-- `String.prototype.toLowerCase` (char-wise, as used on ASCII model names). -/
def lowerStr (s : String) : String :=
  ⟨s.data.map Char.toLower⟩

/-- `haystack.includes(needle)`: substring containment test. -/
def containsSub (hay pat : String) : Bool :=
  go hay.data pat.data
where
  go : List Char → List Char → Bool
    | s, pat =>
      pat.isPrefixOf s ||
        match s with
        | [] => false
        | _ :: rest => go rest pat

/-! ## Data model -/

/-- One commit as returned by the hosting API's list-commits call, restricted
to the fields the analysis pipeline reads: `sha`, `parents` (modelled by the
number of parents, `none` when the field is absent or not an array),
`commit.author.date` and `commit.committer.date` (modelled as optional `Nat`
timestamps, `none` when the nested field is absent). -/
structure CommitRef where
  sha : String
  parents : Option Nat
  authorDate : Option Nat
  committerDate : Option Nat
deriving DecidableEq, Repr

/-- One file entry shaped by the enricher from a commit-detail response
(`filename`, `status`, `additions`, `deletions`, `changes`, `patch`). -/
structure FileChange where
  filename : String
  status : String
  additions : Nat
  deletions : Nat
  changes : Nat
  patch : String
deriving DecidableEq, Repr

/-- `isMergeCommit(commit)`: `Array.isArray(commit.parents) &&
commit.parents.length > 1`. -/
def isMergeCommit (c : CommitRef) : Bool :=
  match c.parents with
  | some n => n > 1
  | none => false

/-- The sort key of the `__ANY__` path's final sort:
`new Date(c.commit.author?.date || c.commit.committer?.date || 0)`. -/
def dateKey (c : CommitRef) : Nat :=
  match c.authorDate with
  | some d => d
  | none => c.committerDate.getD 0

/-! ## JSON values and a model of `JSON.parse`

`JSON.parse` is a JavaScript builtin; it is modelled by a recursive-descent
parser over the JSON grammar (fuel-bounded; the fuel is generous enough for
every input, since each recursive step is entered only after consuming at
least one character of a finite input).  Numbers keep their source lexeme —
their numeric value is irrelevant to the claims.  String escapes cover the
single-character JSON escapes; `\u` escapes do not occur in any input
considered here. -/

inductive Json where
  | null : Json
  | bool (b : Bool) : Json
  | num (lexeme : String) : Json
  | str (s : String) : Json
  | arr (items : List Json) : Json
  | obj (fields : List (String × Json)) : Json

/-- The opening-brace and closing-brace characters. -/
def braceL : Char := Char.ofNat 123

def braceR : Char := Char.ofNat 125

/-- Skip JSON insignificant whitespace. -/
def skipWs : List Char → List Char
  | c :: cs => if isWsChar c then skipWs cs else c :: cs
  | [] => []

/-- Parse the body of a JSON string after the opening quote; returns the
string content and the remaining input after the closing quote. -/
def parseStringBody : List Char → Option (List Char × List Char)
  | [] => none
  | '"' :: rest => some ([], rest)
  | '\\' :: e :: rest =>
    let esc : Option Char :=
      if e = '"' ∨ e = '\\' ∨ e = '/' then some e
      else if e = 'n' then some '\n'
      else if e = 't' then some '\t'
      else if e = 'r' then some '\r'
      else if e = 'b' then some (Char.ofNat 8)
      else if e = 'f' then some (Char.ofNat 12)
      else none
    match esc, parseStringBody rest with
    | some c, some (s, rem) => some (c :: s, rem)
    | _, _ => none
  | c :: rest =>
    match parseStringBody rest with
    | some (s, rem) => some (c :: s, rem)
    | none => none

/-- Parse a JSON number lexeme (`-?digits(.digits)?((e|E)(+|-)?digits)?`). -/
def parseNumberLex (cs : List Char) : Option (List Char × List Char) :=
  let (sign, cs₁) :=
    match cs with
    | '-' :: rest => (['-'], rest)
    | _ => (([] : List Char), cs)
  let intPart := cs₁.takeWhile Char.isDigit
  if intPart.isEmpty then none
  else
    let cs₂ := cs₁.drop intPart.length
    let (frac, cs₃) :=
      match cs₂ with
      | '.' :: rest =>
        let ds := rest.takeWhile Char.isDigit
        if ds.isEmpty then (([] : List Char), cs₂)
        else ('.' :: ds, rest.drop ds.length)
      | _ => ([], cs₂)
    let (expo, cs₄) :=
      match cs₃ with
      | e :: rest =>
        if e = 'e' ∨ e = 'E' then
          let (es, rest₁) :=
            match rest with
            | s :: r => if s = '+' ∨ s = '-' then ([s], r) else (([] : List Char), rest)
            | [] => ([], rest)
          let ds := rest₁.takeWhile Char.isDigit
          if ds.isEmpty then (([] : List Char), cs₃)
          else (e :: (es ++ ds), rest₁.drop ds.length)
        else ([], cs₃)
      | [] => ([], cs₃)
    some (sign ++ intPart ++ frac ++ expo, cs₄)

mutual

/-- Parse one JSON value at the head of the input (whitespace already
skipped); fuel-bounded recursion. -/
def parseVal : Nat → List Char → Option (Json × List Char)
  | 0, _ => none
  | _ + 1, [] => none
  | fuel + 1, c :: cs =>
    if c = 'n' then
      if "ull".data.isPrefixOf cs then some (Json.null, cs.drop 3) else none
    else if c = 't' then
      if "rue".data.isPrefixOf cs then some (Json.bool true, cs.drop 3) else none
    else if c = 'f' then
      if "alse".data.isPrefixOf cs then some (Json.bool false, cs.drop 4) else none
    else if c = '"' then
      match parseStringBody cs with
      | some (s, rem) => some (Json.str ⟨s⟩, rem)
      | none => none
    else if c = '[' then
      match skipWs cs with
      | ']' :: rem => some (Json.arr [], rem)
      | cs' =>
        match parseArrItems fuel cs' with
        | some (items, rem) => some (Json.arr items, rem)
        | none => none
    else if c = braceL then
      match skipWs cs with
      | d :: rem =>
        if d = braceR then some (Json.obj [], rem)
        else
          match parseObjFields fuel (d :: rem) with
          | some (fields, rem') => some (Json.obj fields, rem')
          | none => none
      | [] => none
    else
      match parseNumberLex (c :: cs) with
      | some (lex, rem) => some (Json.num ⟨lex⟩, rem)
      | none => none

/-- Parse a nonempty comma-separated list of array items up to `]`. -/
def parseArrItems : Nat → List Char → Option (List Json × List Char)
  | 0, _ => none
  | fuel + 1, cs =>
    match parseVal fuel cs with
    | some (v, rem) =>
      match skipWs rem with
      | ',' :: rem' =>
        match parseArrItems fuel (skipWs rem') with
        | some (items, rem'') => some (v :: items, rem'')
        | none => none
      | ']' :: rem' => some ([v], rem')
      | _ => none
    | none => none

/-- Parse a nonempty comma-separated list of object members up to the
closing brace. -/
def parseObjFields : Nat → List Char → Option (List (String × Json) × List Char)
  | 0, _ => none
  | fuel + 1, cs =>
    match cs with
    | '"' :: cs' =>
      match parseStringBody cs' with
      | some (key, rem) =>
        match skipWs rem with
        | ':' :: rem' =>
          match parseVal fuel (skipWs rem') with
          | some (v, rem'') =>
            match skipWs rem'' with
            | ',' :: rem₃ =>
              match parseObjFields fuel (skipWs rem₃) with
              | some (fields, rem₄) => some ((⟨key⟩, v) :: fields, rem₄)
              | none => none
            | d :: rem₃ =>
              if d = braceR then some ([(⟨key⟩, v)], rem₃) else none
            | [] => none
          | none => none
        | _ => none
      | none => none
    | _ => none

end

/-- Model of `JSON.parse`: parse one JSON value, requiring only whitespace
after it; `none` models a thrown `SyntaxError`. -/
def jsonParse (s : String) : Option Json :=
  let cs := skipWs s.data
  match parseVal (3 * cs.length + 3) cs with
  | some (v, rest) => if (skipWs rest).isEmpty then some v else none
  | none => none

/-! ## Repo Reference Parser (`parseRepo`, `server/index.js` lines 380–387) -/

/-- An `{owner, repo}` pair as returned by `parseRepo`. -/
structure RepoRef where
  owner : String
  repo : String
deriving DecidableEq, Repr

/-- Case-insensitively strip a literal pattern from the front of the input
(the `/i` flag on a literal regex fragment); returns the remainder. -/
def ciStrip : List Char → List Char → Option (List Char)
  | [], cs => some cs
  | _ :: _, [] => none
  | p :: ps, c :: cs => if p.toLower = c.toLower then ciStrip ps cs else none

/-- Try `/github\.com\/([^/]+)\/([^/.]+)(?:\.git)?/i` anchored at the current
position.  The first group is a maximal nonempty run of non-`/` characters,
the second a maximal nonempty run of characters that are neither `/` nor `.`
(the trailing optional `.git` consumes nothing that affects the groups). -/
def matchUrlAt (cs : List Char) : Option RepoRef :=
  match ciStrip "github.com/".data cs with
  | none => none
  | some rest =>
    let owner := rest.takeWhile (· ≠ '/')
    if owner.isEmpty then none
    else
      match rest.drop owner.length with
      | '/' :: rest₂ =>
        let name := rest₂.takeWhile (fun c => c ≠ '/' && c ≠ '.')
        if name.isEmpty then none else some ⟨⟨owner⟩, ⟨name⟩⟩
      | _ => none

/-- Unanchored search for the URL pattern: the regex engine tries each start
position from the left and returns the first successful match. -/
def matchUrl : List Char → Option RepoRef
  | [] => none
  | c :: cs =>
    match matchUrlAt (c :: cs) with
    | some r => some r
    | none => matchUrl cs

/-- `/^([^\/]+)\/([^\/]+)$/`: the whole input is a nonempty run of non-`/`
characters, one `/`, and a nonempty run of non-`/` characters. -/
def matchSimple (cs : List Char) : Option RepoRef :=
  let owner := cs.takeWhile (· ≠ '/')
  if owner.isEmpty then none
  else
    match cs.drop owner.length with
    | '/' :: name =>
      if name.isEmpty || !name.all (· ≠ '/') then none
      else some ⟨⟨owner⟩, ⟨name⟩⟩
    | _ => none

/-- The error message thrown when neither pattern matches. -/
def invalidRepoMsg : String :=
  "Invalid repo format. Use \"owner/repo\" or a GitHub URL."

/-- `parseRepo(input)`: trim, try the URL regex, then the `owner/repo` regex,
else throw. -/
def parseRepo (input : String) : Except String RepoRef :=
  match matchUrl (trimStr input).data with
  | some r => Except.ok r
  | none =>
    match matchSimple (trimStr input).data with
    | some r => Except.ok r
    | none => Except.error invalidRepoMsg

/-! ## Progress Channel Registry (`server/index.js` lines 338–368)

A channel is `{ res?, buffer }`; `res : Bool` models whether a live SSE
response object is attached.  The registry `channels` is an insertion-ordered
association list, modelling the JS `Map`.  The JS buffer stores the raw
message strings (timestamps are attached only at write time). -/

/-- One progress channel: `{ res?, buffer: string[] }`. -/
structure Channel where
  res : Bool
  buffer : List String
deriving DecidableEq, Repr

instance : Inhabited Channel := ⟨⟨false, []⟩⟩

/-- The registry `channels : Map id → channel`. -/
abbrev Registry : Type := List (String × Channel)

/-- `channels.set(id, ch)`: replace the binding in place, or append a new
binding (JS `Map.set` keeps the original position of an existing key). -/
def setCh : List (String × Channel) → String → Channel → List (String × Channel)
  | [], id, ch => [(id, ch)]
  | (k, v) :: rest, id, ch =>
    if k = id then (id, ch) :: rest else (k, v) :: setCh rest id ch

/-- `channels.get(id) || \x7b buffer: [] \x7d`. -/
def getCh (reg : Registry) (id : String) : Channel :=
  (List.lookup id reg).getD default

/-- `ch.buffer.push(line); if (ch.buffer.length > 2000) ch.buffer.shift()`:
the bounded-buffer step, dropping the oldest entry past 2000. -/
def capBuf (buf : List String) : List String :=
  if buf.length > 2000 then buf.tail else buf

/-- `progressSend(id, text)` (lines 340–351).  Returns the updated registry
and the message written to a live subscriber, if any: when a subscriber is
attached the event is only written to it; otherwise it is appended to the
buffer, dropping the oldest entry once the buffer exceeds 2000 entries.
`if (!id) return` is the empty-string guard. -/
def progressSend (id : String) (text : String) (reg : Registry) :
    Registry × Option String :=
  if id = "" then (reg, none)
  else if (getCh reg id).res then
    (setCh reg id (getCh reg id), some text)
  else
    (setCh reg id ⟨false, capBuf ((getCh reg id).buffer ++ [text])⟩, none)

/-- `GET /api/progress/:id` (lines 357–368): attach a subscriber, replay the
full current buffer (which is not cleared), then the `ready` marker.  Returns
the updated registry and the replayed lines. -/
def subscribe (id : String) (reg : Registry) : Registry × List String :=
  (setCh reg id ⟨true, (getCh reg id).buffer⟩, (getCh reg id).buffer)

/-- The `req.on('close')` handler: detach the live subscriber, keeping the
buffer. -/
def disconnect (id : String) (reg : Registry) : Registry :=
  match List.lookup id reg with
  | some ch => setCh reg id ⟨false, ch.buffer⟩
  | none => reg

/-! ## Model invocation options (`IS_GPT5`, `createOpenAIResponse`,
`server/index.js` lines 323 and 331–335) -/

/-- The fixed low temperature `0.2` given to non-reasoning-tier models. -/
def tempDefault : ℚ := 1 / 5

/-- `IS_GPT5 = (OPENAI_MODEL || '').toLowerCase().includes('gpt-5')`. -/
def IS_GPT5 (model : String) : Bool :=
  containsSub (lowerStr model) "gpt-5"

/-- The option object passed to `openai.responses.create`. -/
structure OpenAIOpts where
  model : String
  input : String
  temperature : Option ℚ
deriving DecidableEq

/-- `createOpenAIResponse(input)`: build `\x7b model, input \x7d` and add
`temperature = 0.2` unless the model is in the `gpt-5` family. -/
def createOpenAIResponse (model : String) (input : String) : OpenAIOpts :=
  { model := model
    input := input
    temperature := if IS_GPT5 model then none else some tempDefault }

/-- The request options built by `summarizeCommit` (line 418): it routes
through `createOpenAIResponse` with the commit prompt as input. -/
def summarizeCommitRequest (model : String) (prompt : String) : OpenAIOpts :=
  createOpenAIResponse model prompt

/-- The request options built by the period-rollup call (line 582): it routes
through `createOpenAIResponse` with the period prompt as input. -/
def periodSummaryRequest (model : String) (prompt : String) : OpenAIOpts :=
  createOpenAIResponse model prompt

/-! ## Per-commit summarizer (`summarizeCommit`, `server/index.js`
lines 416–432) -/

/-- The fixed fallback `CommitSummary` returned when `JSON.parse` throws. -/
def fallbackSummary (files : List FileChange) : Json :=
  Json.obj
    [ ("summary", Json.str "Could not parse summary (model returned non-JSON).")
    , ("change_type", Json.str "other")
    , ("areas", Json.arr [])
    , ("risk", Json.str "low")
    , ("test_impact", Json.str "N/A")
    , ("notable_files", Json.arr ((files.take 3).map (fun f => Json.str f.filename)))
    ]

/-- The parse-or-fallback step of `summarizeCommit`: `output_text` is the
model response's text field (`none` when absent); the code takes
`resp.output_text?.trim() || ''`, applies `JSON.parse` inside `try`, and on
any parse failure returns the fixed fallback object. -/
def summarizeCommit (output_text : Option String) (files : List FileChange) : Json :=
  match jsonParse ((output_text.map trimStr).getD "") with
  | some v => v
  | none => fallbackSummary files

/-! ## Commit Collector (`POST /api/analyze`, `server/index.js`
lines 498–532) -/

/-- The inner loop of the `__ANY__` path over one branch's commit list
(lines 512–518): skip merges unless `includeMerges`, skip shas already in
`seen`, insert `(sha, commit)` otherwise, and break out of the branch as soon
as `seen.size >= maxCommits` holds after an insertion. -/
def processList (includeMerges : Bool) (maxCommits : Nat) :
    List CommitRef → List (String × CommitRef) → List (String × CommitRef)
  | [], seen => seen
  | c :: rest, seen =>
    if !includeMerges && isMergeCommit c then
      processList includeMerges maxCommits rest seen
    else if (List.lookup c.sha seen).isSome then
      processList includeMerges maxCommits rest seen
    else
      let seen' := seen ++ [(c.sha, c)]
      if maxCommits ≤ seen'.length then seen'
      else processList includeMerges maxCommits rest seen'

/-- The outer loop of the `__ANY__` path over the enumerated branches
(lines 507–520): process each branch's list in order, breaking as soon as
`seen.size >= maxCommits` holds after a branch. -/
def collectLoop (includeMerges : Bool) (maxCommits : Nat) :
    List (List CommitRef) → List (String × CommitRef) → List (String × CommitRef)
  | [], seen => seen
  | l :: ls, seen =>
    let seen' := processList includeMerges maxCommits l seen
    if maxCommits ≤ seen'.length then seen'
    else collectLoop includeMerges maxCommits ls seen'

/-- Stable insertion step: place `x` after every already-placed element whose
key is at least `key x` (this is where a stable descending sort puts it). -/
def insDesc {α : Type} (key : α → Nat) (x : α) : List α → List α
  | [] => [x]
  | b :: l => if key x ≤ key b then b :: insDesc key x l else x :: b :: l

/-- Stable descending sort by a `Nat` key, processing elements left to right;
models `Array.prototype.sort` with comparator `(a, b) => keyB - keyA`
(ES2019+ sorts are stable). -/
def sortDesc {α : Type} (key : α → Nat) (l : List α) : List α :=
  l.foldl (fun acc x => insDesc key x acc) []

/-- The full `__ANY__` collection (lines 506–523), for a given
`branchLists` — the commit lists of the enumerated branches in enumeration
order: deduplicate/cap across branches, take the `Map` values in insertion
order, and sort by author date descending (committer date, then 0, as
fallbacks). -/
def collectAny (includeMerges : Bool) (maxCommits : Nat)
    (branchLists : List (List CommitRef)) : List CommitRef :=
  sortDesc dateKey ((collectLoop includeMerges maxCommits branchLists []).map Prod.snd)

/-- The single-branch collection (line 530), for the upstream list `listed`:
`(includeMerges ? listed : listed.filter(c => !isMergeCommit(c))).slice(0,
Math.min(maxCommits, listed.length))`. -/
def collectSingle (includeMerges : Bool) (maxCommits : Nat)
    (listed : List CommitRef) : List CommitRef :=
  (if includeMerges then listed else listed.filter (fun c => !isMergeCommit c)).take
    (min maxCommits listed.length)

/-- The enrichment loop (lines 540–545) issues one `getCommit` detail fetch
per collected commit, in order; this is the list of fetched refs. -/
def enrichFetches (commits : List CommitRef) : List String :=
  commits.map (·.sha)

/-! ## Aggregator (`areaCounts` / `sortedAreas` / `topAreas`,
`server/index.js` lines 538, 564, 577–578) -/

/-- `areaCounts.set(a, (areaCounts.get(a) || 0) + 1)`: bump the counter for
one tag, preserving the JS `Map` insertion order. -/
def bumpArea : List (String × Nat) → String → List (String × Nat)
  | [], a => [(a, 1)]
  | (k, n) :: rest, a =>
    if k = a then (k, n + 1) :: rest else (k, n) :: bumpArea rest a

/-- The area-frequency `Map` accumulated over the flattened sequence of all
commits' area tags (line 564). -/
def areaCounts (tags : List String) : List (String × Nat) :=
  tags.foldl bumpArea []

/-- `[...areaCounts.entries()].sort((a,b) => b[1]-a[1]).map(([k]) => k)`
(line 577): stable sort of the entries by count descending, keys only. -/
def sortedAreas (tags : List String) : List String :=
  (sortDesc (fun p => p.2) (areaCounts tags)).map Prod.fst

/-- `aggregate.topAreas = sortedAreas.slice(0, 10)` (line 578). -/
def topAreas (tags : List String) : List String :=
  (sortedAreas tags).take 10

/-- Modelled from the spec: "`topAreas` is the counter's keys sorted by
descending frequency, ties broken by first-insertion order, truncated to
10".  The distinct tags are taken with their first-insertion index and
ordered by the total order (frequency descending, then first-insertion index
ascending), which needs no stability notion. -/
def lexBefore (e f : Nat × String × Nat) : Bool :=
  f.2.2 < e.2.2 || (e.2.2 = f.2.2 && e.1 ≤ f.1)

/-- Insertion into a list ordered by `lexBefore`. -/
def insLex (x : Nat × String × Nat) : List (Nat × String × Nat) → List (Nat × String × Nat)
  | [] => [x]
  | b :: l => if lexBefore x b then x :: b :: l else b :: insLex x l

/-- Modelled from the spec: sort the indexed counter entries by the total
order `lexBefore` (frequency descending, first-insertion index ascending). -/
def specSortLex (l : List (Nat × String × Nat)) : List (Nat × String × Nat) :=
  l.foldl (fun acc x => insLex x acc) []

/-- Modelled from the spec: the distinct tags ordered by descending
frequency with ties in first-seen order, truncated to the top 10. -/
def specTopAreas (tags : List String) : List String :=
  ((specSortLex (areaCounts tags).enum).map (fun e => e.2.1)).take 10

/-! ## Helper lemmas about the stable sort -/

theorem mem_insDesc {α : Type} (key : α → Nat) (x : α) :
    ∀ (l : List α) (a : α), a ∈ insDesc key x l ↔ a = x ∨ a ∈ l := by
  intro l a
  induction l with
  | nil => simp [insDesc]
  | cons b l ih =>
    by_cases h : key x ≤ key b
    · simp only [insDesc, if_pos h, List.mem_cons, ih]
      tauto
    · simp [insDesc, if_neg h]

theorem perm_insDesc {α : Type} (key : α → Nat) (x : α) :
    ∀ l : List α, List.Perm (insDesc key x l) (x :: l) := by
  intro l
  induction l with
  | nil => simp [insDesc]
  | cons b l ih =>
    by_cases h : key x ≤ key b
    · simp only [insDesc, if_pos h]
      exact (ih.cons b).trans (List.Perm.swap x b l)
    · simp [insDesc, if_neg h]

theorem perm_sortDesc {α : Type} (key : α → Nat) (l : List α) :
    List.Perm (sortDesc key l) l := by
  suffices h : ∀ (l acc : List α),
      List.Perm (List.foldl (fun acc x => insDesc key x acc) acc l) (acc ++ l) by
    simpa using h l []
  intro l
  induction l with
  | nil => intro acc; simp
  | cons x l ih =>
    intro acc
    rw [List.foldl_cons]
    exact (ih (insDesc key x acc)).trans
      (((perm_insDesc key x acc).append_right l).trans List.perm_middle.symm)

theorem sorted_insDesc {α : Type} (key : α → Nat) (x : α) :
    ∀ {l : List α}, List.Pairwise (fun a b => key b ≤ key a) l →
      List.Pairwise (fun a b => key b ≤ key a) (insDesc key x l) := by
  intro l hl
  induction l with
  | nil => simp [insDesc]
  | cons b l ih =>
    rw [List.pairwise_cons] at hl
    by_cases h : key x ≤ key b
    · rw [insDesc, if_pos h, List.pairwise_cons]
      refine ⟨fun a ha => ?_, ih hl.2⟩
      rcases (mem_insDesc key x l a).1 ha with rfl | ha
      · exact h
      · exact hl.1 a ha
    · rw [insDesc, if_neg h, List.pairwise_cons]
      refine ⟨fun a ha => ?_, List.pairwise_cons.2 hl⟩
      rcases List.mem_cons.1 ha with rfl | ha
      · exact Nat.le_of_not_le h
      · exact le_trans (hl.1 a ha) (Nat.le_of_not_le h)

theorem sorted_sortDesc {α : Type} (key : α → Nat) (l : List α) :
    List.Pairwise (fun a b => key b ≤ key a) (sortDesc key l) := by
  suffices h : ∀ (l acc : List α),
      List.Pairwise (fun a b => key b ≤ key a) acc →
      List.Pairwise (fun a b => key b ≤ key a)
        (List.foldl (fun acc x => insDesc key x acc) acc l) by
    exact h l [] (by simp)
  intro l
  induction l with
  | nil => intro acc hacc; simpa using hacc
  | cons x l ih => intro acc hacc; exact ih _ (sorted_insDesc key x hacc)

/-! ## Helper lemmas about association-list lookup and `setCh` -/

theorem lookup_eq_none_iff {β : Type} {l : List (String × β)} {k : String} :
    List.lookup k l = none ↔ ∀ p ∈ l, p.1 ≠ k := by
  induction l with
  | nil => simp
  | cons a l ih =>
    rcases a with ⟨k', v⟩
    by_cases h : k = k'
    · subst h; simp [List.lookup]
    · have hcons : List.lookup k ((k', v) :: l) = List.lookup k l := by
        simp [List.lookup, (show (k == k') = false by simp [h])]
      rw [hcons]
      simp only [List.mem_cons]
      constructor
      · intro hn
        rintro p (rfl | hp)
        · exact fun hk => h hk.symm
        · exact ih.1 hn p hp
      · intro hall
        exact ih.2 fun p hp => hall p (Or.inr hp)

theorem lookup_setCh (reg : List (String × Channel)) (id : String) (ch : Channel) :
    List.lookup id (setCh reg id ch) = some ch := by
  induction reg with
  | nil => simp [setCh, List.lookup]
  | cons a reg ih =>
    rcases a with ⟨k, v⟩
    by_cases h : k = id
    · simp [setCh, if_pos h, List.lookup]
    · rw [setCh, if_neg h]
      have hcons : List.lookup id ((k, v) :: setCh reg id ch) =
          List.lookup id (setCh reg id ch) := by
        simp [List.lookup, (show (id == k) = false by simp [Ne.symm h])]
      rw [hcons]
      exact ih

theorem getCh_setCh (reg : List (String × Channel)) (id : String) (ch : Channel) :
    getCh (setCh reg id ch) id = ch := by
  simp [getCh, lookup_setCh]

/-! ## Helper lemmas about the `__ANY__` collection loops -/

theorem processList_length_le {includeMerges : Bool} {maxCommits : Nat} :
    ∀ {l : List CommitRef} {seen : List (String × CommitRef)},
      seen.length < maxCommits →
      (processList includeMerges maxCommits l seen).length ≤ maxCommits := by
  intro l
  induction l with
  | nil => intro seen h; exact Nat.le_of_lt h
  | cons c rest ih =>
    intro seen h
    rw [processList]
    by_cases hm : (!includeMerges && isMergeCommit c) = true
    · rw [if_pos hm]; exact ih h
    · rw [if_neg hm]
      by_cases hs : (List.lookup c.sha seen).isSome = true
      · rw [if_pos hs]; exact ih h
      · rw [if_neg hs]
        by_cases hc : maxCommits ≤ (seen ++ [(c.sha, c)]).length
        · rw [if_pos hc]
          rw [List.length_append, List.length_singleton]
          exact h
        · rw [if_neg hc]
          have : (seen ++ [(c.sha, c)]).length < maxCommits := Nat.lt_of_not_le hc
          exact ih this

theorem collectLoop_length_le {includeMerges : Bool} {maxCommits : Nat} :
    ∀ {ls : List (List CommitRef)} {seen : List (String × CommitRef)},
      seen.length < maxCommits →
      (collectLoop includeMerges maxCommits ls seen).length ≤ maxCommits := by
  intro ls
  induction ls with
  | nil => intro seen h; exact Nat.le_of_lt h
  | cons l ls ih =>
    intro seen h
    rw [collectLoop]
    by_cases hc : maxCommits ≤ (processList includeMerges maxCommits l seen).length
    · rw [if_pos hc]
      exact processList_length_le h
    · rw [if_neg hc]
      exact ih (Nat.lt_of_not_le hc)

/-- The invariant carried by the deduplication map `seen`: its keys are
duplicate-free and each value is stored under its own sha. -/
def GoodSeen (seen : List (String × CommitRef)) : Prop :=
  (seen.map Prod.fst).Nodup ∧ ∀ p ∈ seen, p.2.sha = p.1

theorem processList_good {includeMerges : Bool} {maxCommits : Nat} :
    ∀ {l : List CommitRef} {seen : List (String × CommitRef)},
      GoodSeen seen → GoodSeen (processList includeMerges maxCommits l seen) := by
  intro l
  induction l with
  | nil => intro seen h; exact h
  | cons c rest ih =>
    intro seen h
    rw [processList]
    by_cases hm : (!includeMerges && isMergeCommit c) = true
    · rw [if_pos hm]; exact ih h
    · rw [if_neg hm]
      by_cases hs : (List.lookup c.sha seen).isSome = true
      · rw [if_pos hs]; exact ih h
      · rw [if_neg hs]
        have hnone : List.lookup c.sha seen = none := by
          cases hl : List.lookup c.sha seen with
          | none => rfl
          | some v => rw [hl] at hs; simp at hs
        have hnotin : c.sha ∉ seen.map Prod.fst := by
          intro hmem
          rcases List.mem_map.1 hmem with ⟨p, hp, hfst⟩
          exact lookup_eq_none_iff.1 hnone p hp hfst
        have hgood' : GoodSeen (seen ++ [(c.sha, c)]) := by
          constructor
          · rw [List.map_append]
            refine List.Nodup.append h.1 (by simp) ?_
            simpa [List.disjoint_singleton] using hnotin
          · intro p hp
            rcases List.mem_append.1 hp with hp | hp
            · exact h.2 p hp
            · simp only [List.mem_singleton] at hp; subst hp; rfl
        by_cases hc : maxCommits ≤ (seen ++ [(c.sha, c)]).length
        · rw [if_pos hc]; exact hgood'
        · rw [if_neg hc]; exact ih hgood'

theorem collectLoop_good {includeMerges : Bool} {maxCommits : Nat} :
    ∀ {ls : List (List CommitRef)} {seen : List (String × CommitRef)},
      GoodSeen seen → GoodSeen (collectLoop includeMerges maxCommits ls seen) := by
  intro ls
  induction ls with
  | nil => intro seen h; exact h
  | cons l ls ih =>
    intro seen h
    rw [collectLoop]
    by_cases hc : maxCommits ≤ (processList includeMerges maxCommits l seen).length
    · rw [if_pos hc]; exact processList_good h
    · rw [if_neg hc]; exact ih (processList_good h)

theorem processList_nomerge {maxCommits : Nat} :
    ∀ {l : List CommitRef} {seen : List (String × CommitRef)},
      (∀ p ∈ seen, isMergeCommit p.2 = false) →
      ∀ p ∈ processList false maxCommits l seen, isMergeCommit p.2 = false := by
  intro l
  induction l with
  | nil => intro seen h; exact h
  | cons c rest ih =>
    intro seen h
    rw [processList]
    by_cases hm : (!false && isMergeCommit c) = true
    · rw [if_pos hm]; exact ih h
    · rw [if_neg hm]
      have hcm : isMergeCommit c = false := by simpa using hm
      have h' : ∀ p ∈ seen ++ [(c.sha, c)], isMergeCommit p.2 = false := by
        intro p hp
        rcases List.mem_append.1 hp with hp | hp
        · exact h p hp
        · simp only [List.mem_singleton] at hp; subst hp; exact hcm
      by_cases hs : (List.lookup c.sha seen).isSome = true
      · rw [if_pos hs]; exact ih h
      · rw [if_neg hs]
        by_cases hc : maxCommits ≤ (seen ++ [(c.sha, c)]).length
        · rw [if_pos hc]; exact h'
        · rw [if_neg hc]; exact ih h'

theorem collectLoop_nomerge {maxCommits : Nat} :
    ∀ {ls : List (List CommitRef)} {seen : List (String × CommitRef)},
      (∀ p ∈ seen, isMergeCommit p.2 = false) →
      ∀ p ∈ collectLoop false maxCommits ls seen, isMergeCommit p.2 = false := by
  intro ls
  induction ls with
  | nil => intro seen h; exact h
  | cons l ls ih =>
    intro seen h
    rw [collectLoop]
    by_cases hc : maxCommits ≤ (processList false maxCommits l seen).length
    · rw [if_pos hc]; exact processList_nomerge h
    · rw [if_neg hc]; exact ih (processList_nomerge h)

theorem processList_zero_length (includeMerges : Bool) :
    ∀ l : List CommitRef, (processList includeMerges 0 l []).length ≤ 1 := by
  intro l
  induction l with
  | nil => simp [processList]
  | cons c rest ih =>
    rw [processList]
    by_cases hm : (!includeMerges && isMergeCommit c) = true
    · rw [if_pos hm]; exact ih
    · rw [if_neg hm]
      simp [List.lookup]

theorem collectLoop_zero (includeMerges : Bool) (l : List CommitRef)
    (ls : List (List CommitRef)) :
    collectLoop includeMerges 0 (l :: ls) [] = processList includeMerges 0 l [] := by
  rw [collectLoop]
  exact if_pos (Nat.zero_le _)

/-- Every commit in the sorted `__ANY__` output comes from the dedup map. -/
theorem mem_collectAny {includeMerges : Bool} {maxCommits : Nat}
    {branchLists : List (List CommitRef)} {c : CommitRef} :
    c ∈ collectAny includeMerges maxCommits branchLists →
    ∃ p ∈ collectLoop includeMerges maxCommits branchLists [], p.2 = c := by
  intro hc
  rw [collectAny] at hc
  have := ((perm_sortDesc dateKey _).mem_iff).1 hc
  rcases List.mem_map.1 this with ⟨p, hp, rfl⟩
  exact ⟨p, hp, rfl⟩

/-! ## Helper lemmas relating the stable code sort on counter entries to the
spec's lexicographic ordering (frequency descending, first-seen ascending) -/

theorem mem_insLex (x : Nat × String × Nat) :
    ∀ (l : List (Nat × String × Nat)) (e : Nat × String × Nat),
      e ∈ insLex x l ↔ e = x ∨ e ∈ l := by
  intro l e
  induction l with
  | nil => simp [insLex]
  | cons b l ih =>
    by_cases h : lexBefore x b = true
    · simp [insLex, if_pos h]
    · simp only [insLex, if_neg h, List.mem_cons, ih]
      tauto

theorem map_snd_insLex (n : Nat) (x : String × Nat) :
    ∀ (S : List (Nat × String × Nat)), (∀ e ∈ S, e.1 < n) →
      (insLex (n, x) S).map Prod.snd
        = insDesc (fun p => p.2) x (S.map Prod.snd) := by
  intro S
  induction S with
  | nil => intro _; rfl
  | cons f S' ih =>
    intro hidx
    rcases f with ⟨j, b⟩
    have hj : j < n := hidx (j, b) (List.mem_cons_self _ _)
    have hnj : (decide (n ≤ j)) = false := decide_eq_false (Nat.not_le.2 hj)
    have hlex : lexBefore (n, x) (j, b) = decide (b.2 < x.2) := by
      simp [lexBefore, hnj]
    by_cases hle : x.2 ≤ b.2
    · have hlexf : lexBefore (n, x) (j, b) = false := by
        rw [hlex]; exact decide_eq_false (Nat.not_lt.2 hle)
      rw [insLex, if_neg (by rw [hlexf]; exact Bool.false_ne_true)]
      rw [List.map_cons, List.map_cons, insDesc, if_pos hle,
        ih fun e he => hidx e (List.mem_cons_of_mem _ he)]
    · have hlext : lexBefore (n, x) (j, b) = true := by
        rw [hlex]; exact decide_eq_true (Nat.lt_of_not_le hle)
      rw [insLex, if_pos hlext, List.map_cons, List.map_cons, insDesc, if_neg hle]

theorem foldl_insLex_map_snd :
    ∀ (L : List (String × Nat)) (n : Nat) (accE : List (Nat × String × Nat)),
      (∀ e ∈ accE, e.1 < n) →
      (List.foldl (fun acc x => insLex x acc) accE (List.enumFrom n L)).map Prod.snd
        = List.foldl (fun acc x => insDesc (fun p => p.2) x acc)
            (accE.map Prod.snd) L := by
  intro L
  induction L with
  | nil => intro n accE _; rfl
  | cons x L' ih =>
    intro n accE hidx
    have hstep : List.enumFrom n (x :: L') = (n, x) :: List.enumFrom (n + 1) L' := rfl
    rw [hstep, List.foldl_cons, List.foldl_cons]
    have hidx' : ∀ e ∈ insLex (n, x) accE, e.1 < n + 1 := by
      intro e he
      rcases (mem_insLex (n, x) accE e).1 he with rfl | he
      · exact Nat.lt_succ_self n
      · exact Nat.lt_succ_of_lt (hidx e he)
    rw [ih (n + 1) _ hidx', map_snd_insLex n x accE hidx]

/-! ## Claim theorems -/

/-- Claim C1 (corrected): `summarizeCommit` never throws; it returns the
exact fixed fallback `CommitSummary` precisely when `JSON.parse` fails on
the trimmed (defaulted-to-empty) model response — which covers empty and
truncated/malformed-JSON responses — while a response that parses as valid
JSON of any shape, including a shape other than `CommitSummary`, is returned
as parsed, not replaced by the fallback. -/
theorem summarizeCommit_fallback :
    ∀ (output_text : Option String) (files : List FileChange),
      (jsonParse ((output_text.map trimStr).getD "") = none →
        summarizeCommit output_text files = fallbackSummary files)
      ∧ ∀ v, jsonParse ((output_text.map trimStr).getD "") = some v →
          summarizeCommit output_text files = v := by
  intro o files
  constructor
  · intro h; unfold summarizeCommit; rw [h]
  · intro v h; unfold summarizeCommit; rw [h]

/-- Witness for C1: an empty response and a truncated-JSON response both
produce exactly the fallback object. -/
theorem summarizeCommit_fallback_witness :
    summarizeCommit (some "") [⟨"a.txt", "modified", 1, 1, 2, ""⟩]
        = fallbackSummary [⟨"a.txt", "modified", 1, 1, 2, ""⟩]
    ∧ summarizeCommit (some "\x7b\"summary\": ") [⟨"a.txt", "modified", 1, 1, 2, ""⟩]
        = fallbackSummary [⟨"a.txt", "modified", 1, 1, 2, ""⟩] :=
  ⟨(summarizeCommit_fallback (some "") _).1 rfl,
   (summarizeCommit_fallback (some "\x7b\"summary\": ") _).1 rfl⟩

/-- Counterexample for C1 as stated: the response `"[1,2,3]"` is valid JSON
of the wrong shape, yet `summarizeCommit` returns the parsed array, not the
fixed fallback object. -/
theorem summarizeCommit_wrongShape_cex :
    jsonParse "[1,2,3]" = some (Json.arr [Json.num "1", Json.num "2", Json.num "3"])
    ∧ summarizeCommit (some "[1,2,3]") [⟨"a.txt", "modified", 1, 1, 2, ""⟩]
        ≠ fallbackSummary [⟨"a.txt", "modified", 1, 1, 2, ""⟩] := by
  refine ⟨rfl, fun h => ?_⟩
  exact Json.noConfusion h

/-- Claim C4 (confirmed): the model invocation omits `temperature` iff the
configured model name contains `"gpt-5"` case-insensitively, every other
model receives the fixed `0.2`, and both the per-commit and the
period-rollup invocations build their options through the same
`createOpenAIResponse`; `"gpt-5-mini"`, `"gpt-5o"` and `"GPT-5"` omit it,
`"gpt-4o-mini"` includes it. -/
theorem temperature_omitted_iff_gpt5 :
    ∀ (model input : String),
      ((createOpenAIResponse model input).temperature = none ↔ IS_GPT5 model = true)
      ∧ (IS_GPT5 model = false →
          (createOpenAIResponse model input).temperature = some tempDefault)
      ∧ summarizeCommitRequest model input = createOpenAIResponse model input
      ∧ periodSummaryRequest model input = createOpenAIResponse model input
      ∧ IS_GPT5 "gpt-5-mini" = true ∧ IS_GPT5 "gpt-5o" = true
      ∧ IS_GPT5 "GPT-5" = true ∧ IS_GPT5 "gpt-4o-mini" = false := by
  intro model input
  refine ⟨?_, ?_, rfl, rfl, by decide, by decide, by decide, by decide⟩
  · cases h : IS_GPT5 model <;> simp [createOpenAIResponse, h]
  · intro h; simp [createOpenAIResponse, h]

/-- Witness for C4: `"gpt-4o-mini"` is not reasoning-tier and receives the
fixed temperature value. -/
theorem temperature_omitted_iff_gpt5_witness :
    (createOpenAIResponse "gpt-4o-mini" "p").temperature = some tempDefault :=
  (temperature_omitted_iff_gpt5 "gpt-4o-mini" "p").2.1 (by decide)

/-- Claim C10 (confirmed): the two accepted repo-reference forms disagree on
names containing a dot — the GitHub-URL form truncates the name at the first
dot while the plain `owner/name` form keeps it — and `parseRepo` throws
exactly when neither pattern matches. -/
theorem parseRepo_dot_disagreement :
    parseRepo "https://github.com/owner/my.repo" = Except.ok ⟨"owner", "my"⟩
    ∧ parseRepo "owner/my.repo" = Except.ok ⟨"owner", "my.repo"⟩
    ∧ ∀ s : String,
        parseRepo s = Except.error invalidRepoMsg ↔
          (matchUrl (trimStr s).data = none ∧ matchSimple (trimStr s).data = none) := by
  refine ⟨rfl, rfl, ?_⟩
  intro s
  unfold parseRepo
  cases hU : matchUrl (trimStr s).data with
  | some r => simp
  | none =>
    cases hS : matchSimple (trimStr s).data with
    | some r => simp
    | none => simp

/-- Claim C2 (corrected): under the `__ANY__` sentinel with `maxCommits = 0`
the output is not always empty — the size check runs only after an
insertion, so the first eligible commit of the first branch is still
collected.  What does hold: the output has at most one commit, detail is
fetched for at most one commit, and every branch after the first is
ignored. -/
theorem collectAny_maxZero :
    ∀ (includeMerges : Bool) (branchLists : List (List CommitRef)),
      (collectAny includeMerges 0 branchLists).length ≤ 1
      ∧ (enrichFetches (collectAny includeMerges 0 branchLists)).length ≤ 1
      ∧ ∀ (l : List CommitRef) (ls : List (List CommitRef)),
          collectAny includeMerges 0 (l :: ls) = collectAny includeMerges 0 [l] := by
  intro incl bls
  have hlen : ∀ bls' : List (List CommitRef), (collectAny incl 0 bls').length ≤ 1 := by
    intro bls'
    cases bls' with
    | nil => simp [collectAny, collectLoop, sortDesc]
    | cons l ls =>
      rw [collectAny, collectLoop_zero, (perm_sortDesc dateKey _).length_eq,
        List.length_map]
      exact processList_zero_length incl l
  refine ⟨hlen bls, ?_, ?_⟩
  · rw [enrichFetches, List.length_map]; exact hlen bls
  · intro l ls
    rw [collectAny, collectAny, collectLoop_zero incl l ls, collectLoop_zero incl l []]

/-- Counterexample for C2 as stated: a repository with one branch holding
one non-merge commit yields a singleton output under `maxCommits = 0`, and
one commit-detail fetch is issued for it. -/
theorem collectAny_maxZero_cex :
    collectAny true 0 [[⟨"s1", some 1, some 10, none⟩]]
        = [⟨"s1", some 1, some 10, none⟩]
    ∧ enrichFetches (collectAny true 0 [[⟨"s1", some 1, some 10, none⟩]]) = ["s1"] := by
  decide

/-- Claim C3 (corrected): `send(id, message)` does not both buffer and push.
With a live subscriber attached the event is only written to the subscriber
and the buffer is unchanged; with no subscriber attached the event is
appended to the buffer — unchanged below 2000 entries, oldest dropped at the
cap — so only events sent while the channel was unobserved are retained for
a later subscriber to replay. -/
theorem progressSend_spec :
    ∀ (id text : String) (reg : Registry), id ≠ "" →
      ((getCh reg id).res = true →
        (progressSend id text reg).2 = some text
        ∧ getCh (progressSend id text reg).1 id = getCh reg id)
      ∧ ((getCh reg id).res = false →
        (progressSend id text reg).2 = none
        ∧ ((getCh reg id).buffer.length < 2000 →
            (getCh (progressSend id text reg).1 id).buffer
              = (getCh reg id).buffer ++ [text])
        ∧ (2000 ≤ (getCh reg id).buffer.length →
            (getCh (progressSend id text reg).1 id).buffer
              = ((getCh reg id).buffer ++ [text]).tail)) := by
  intro id text reg h
  constructor
  · intro hres
    unfold progressSend
    rw [if_neg h, if_pos hres]
    exact ⟨rfl, getCh_setCh reg id _⟩
  · intro hres
    unfold progressSend
    rw [if_neg h, if_neg (by simp [hres])]
    refine ⟨rfl, ?_, ?_⟩
    · intro hlt
      rw [getCh_setCh]
      unfold capBuf
      rw [if_neg ?_]
      rw [List.length_append, List.length_singleton]
      intro hgt
      exact absurd (Nat.lt_succ_iff.1 hgt) (Nat.not_le.2 hlt)
    · intro hge
      rw [getCh_setCh]
      unfold capBuf
      rw [if_pos ?_]
      rw [List.length_append, List.length_singleton]
      exact Nat.lt_succ_of_le hge

/-- Witness for C3's theorem: on a registry with one attached and one
detached channel, a send to the attached channel goes only to the live
subscriber, and a send to the detached channel is appended to its buffer. -/
theorem progressSend_spec_witness :
    (progressSend "r" "x" [("r", ⟨true, ["a"]⟩)]).2 = some "x"
    ∧ getCh (progressSend "r" "x" [("r", ⟨true, ["a"]⟩)]).1 "r" = getCh [("r", ⟨true, ["a"]⟩)] "r"
    ∧ (getCh (progressSend "r" "x" [("r", ⟨false, ["a"]⟩)]).1 "r").buffer = ["a"] ++ ["x"] :=
  ⟨((progressSend_spec "r" "x" [("r", ⟨true, ["a"]⟩)] (by decide)).1 (by decide)).1,
   ((progressSend_spec "r" "x" [("r", ⟨true, ["a"]⟩)] (by decide)).1 (by decide)).2,
   (((progressSend_spec "r" "x" [("r", ⟨false, ["a"]⟩)] (by decide)).2 (by decide)).2.1 (by decide))⟩

/-- Counterexample for C3 as stated: an event sent while a subscriber was
attached is written to the subscriber but never buffered, so after the
subscriber disconnects a later subscriber replays nothing — the event is
lost for replay. -/
theorem progressSend_buffer_loss_cex :
    (progressSend "run1" "x" (subscribe "run1" ([] : Registry)).1).2 = some "x"
    ∧ (subscribe "run1"
        (disconnect "run1"
          (progressSend "run1" "x" (subscribe "run1" ([] : Registry)).1).1)).2 = [] := by
  decide

/-- Claim C5 (confirmed): every sha in the `__ANY__` output appears exactly
once — the dedup map's keys are unique and each value is stored under its
own sha — and a commit reachable from several branches is attributed to the
branch processed first (concrete instance: the same sha delivered by two
branches with different payloads keeps the first branch's payload). -/
theorem collectAny_sha_unique :
    ∀ (includeMerges : Bool) (maxCommits : Nat) (branchLists : List (List CommitRef)),
      ((collectAny includeMerges maxCommits branchLists).map (fun c => c.sha)).Nodup
      ∧ collectAny true 5
          [[⟨"s1", some 1, some 10, none⟩], [⟨"s1", some 1, some 20, none⟩]]
          = [⟨"s1", some 1, some 10, none⟩] := by
  intro incl max bls
  refine ⟨?_, by decide⟩
  have hg : GoodSeen (collectLoop incl max bls []) :=
    collectLoop_good ⟨List.nodup_nil, by simp⟩
  have h1 : ((collectLoop incl max bls []).map Prod.snd).map (fun c => c.sha)
      = (collectLoop incl max bls []).map Prod.fst := by
    rw [List.map_map]
    exact List.map_congr_left fun p hp => hg.2 p hp
  have hperm :
      List.Perm
        ((sortDesc dateKey ((collectLoop incl max bls []).map Prod.snd)).map (fun c => c.sha))
        (((collectLoop incl max bls []).map Prod.snd).map (fun c => c.sha)) :=
    (perm_sortDesc dateKey _).map _
  rw [collectAny]
  exact hperm.symm.nodup (by rw [h1]; exact hg.1)

/-- Claim C6 (confirmed): with a positive `maxCommits`, both the
single-branch path and the `__ANY__` path (with its early stop inside and
across branch loops) return at most `maxCommits` commits. -/
theorem collect_length_le :
    ∀ (includeMerges : Bool) (maxCommits : Nat), 0 < maxCommits →
      ∀ (branchLists : List (List CommitRef)) (listed : List CommitRef),
        (collectAny includeMerges maxCommits branchLists).length ≤ maxCommits
        ∧ (collectSingle includeMerges maxCommits listed).length ≤ maxCommits := by
  intro incl max hpos bls listed
  constructor
  · rw [collectAny, (perm_sortDesc dateKey _).length_eq, List.length_map]
    exact collectLoop_length_le (by simpa using hpos)
  · rw [collectSingle, List.length_take]
    exact le_trans (min_le_left _ _) (min_le_left _ _)

/-- Witness for C6 at `maxCommits = 1` on two branches and a two-commit
upstream list. -/
theorem collect_length_le_witness :
    (collectAny true 1
        [[⟨"s1", some 1, some 10, none⟩], [⟨"s2", some 1, some 10, none⟩]]).length ≤ 1
    ∧ (collectSingle true 1
        [⟨"s1", some 1, some 10, none⟩, ⟨"s2", some 1, some 10, none⟩]).length ≤ 1 :=
  collect_length_le true 1 (by decide) _ _

/-- Claim C7 (corrected): with `includeMerges = false` no merge commit ever
appears in the output on either path; but the "present iff
`includeMerges = true`" direction and the "runs differ only in merge
commits" property hold only when the cap does not bind
(`listed.length ≤ maxCommits`) — the cap can evict a merge commit even with
`includeMerges = true`. -/
theorem merge_filter_rule :
    (∀ (maxCommits : Nat) (listed : List CommitRef),
      ∀ c ∈ collectSingle false maxCommits listed, isMergeCommit c = false)
    ∧ (∀ (maxCommits : Nat) (branchLists : List (List CommitRef)),
      ∀ c ∈ collectAny false maxCommits branchLists, isMergeCommit c = false)
    ∧ ∀ (maxCommits : Nat) (listed : List CommitRef),
        listed.length ≤ maxCommits →
        collectSingle false maxCommits listed
          = (collectSingle true maxCommits listed).filter (fun c => !isMergeCommit c)
        ∧ ∀ c ∈ listed, isMergeCommit c = true →
            ∀ includeMerges : Bool,
              (c ∈ collectSingle includeMerges maxCommits listed ↔ includeMerges = true) := by
  have hsingle_true : ∀ (maxCommits : Nat) (listed : List CommitRef),
      listed.length ≤ maxCommits → collectSingle true maxCommits listed = listed := by
    intro max listed hmax
    rw [collectSingle, if_pos rfl, min_eq_right hmax, List.take_length]
  have hsingle_false : ∀ (maxCommits : Nat) (listed : List CommitRef),
      listed.length ≤ maxCommits →
      collectSingle false maxCommits listed
        = listed.filter (fun c => !isMergeCommit c) := by
    intro max listed hmax
    rw [collectSingle, if_neg (by simp), min_eq_right hmax]
    exact List.take_of_length_le (le_trans (List.length_filter_le _ _) le_rfl)
  have hnomerge_single : ∀ (maxCommits : Nat) (listed : List CommitRef),
      ∀ c ∈ collectSingle false maxCommits listed, isMergeCommit c = false := by
    intro max listed c hc
    rw [collectSingle, if_neg (by simp)] at hc
    have := List.of_mem_filter (List.mem_of_mem_take hc)
    simpa using this
  refine ⟨hnomerge_single, ?_, ?_⟩
  · intro max bls c hc
    rcases mem_collectAny hc with ⟨p, hp, rfl⟩
    exact collectLoop_nomerge (by simp) p hp
  · intro max listed hmax
    refine ⟨by rw [hsingle_false max listed hmax, hsingle_true max listed hmax], ?_⟩
    intro c hc hm incl
    cases incl with
    | true => simp [hsingle_true max listed hmax, hc]
    | false =>
      have : c ∉ collectSingle false max listed := fun hmem =>
        absurd hm (by simp [hnomerge_single max listed c hmem])
      simp [this]

/-- Witness for C7's theorem: with the cap not binding, the
`includeMerges = false` run equals the merge-filtered `includeMerges = true`
run, and a merge commit is present exactly in the `true` run. -/
theorem merge_filter_rule_witness :
    collectSingle false 2 [⟨"sa", some 1, some 5, none⟩, ⟨"sm", some 2, some 4, none⟩]
      = (collectSingle true 2
          [⟨"sa", some 1, some 5, none⟩, ⟨"sm", some 2, some 4, none⟩]).filter
          (fun c => !isMergeCommit c)
    ∧ ((⟨"sm", some 2, some 4, none⟩ : CommitRef)
        ∈ collectSingle true 2 [⟨"sa", some 1, some 5, none⟩, ⟨"sm", some 2, some 4, none⟩]
        ↔ true = true) :=
  ⟨(merge_filter_rule.2.2 2 _ (by decide)).1,
   (merge_filter_rule.2.2 2 _ (by decide)).2 ⟨"sm", some 2, some 4, none⟩
     (by decide) (by decide) true⟩

/-- Counterexample for C7 as stated: a merge commit in the upstream list is
absent from the output even though `includeMerges = true`, because the
`maxCommits` cap evicts it. -/
theorem merge_filter_cex :
    isMergeCommit ⟨"sm", some 2, some 4, none⟩ = true
    ∧ (⟨"sm", some 2, some 4, none⟩ : CommitRef)
        ∈ [⟨"sa", some 1, some 5, none⟩, ⟨"sm", some 2, some 4, none⟩]
    ∧ (⟨"sm", some 2, some 4, none⟩ : CommitRef)
        ∉ collectSingle true 1 [⟨"sa", some 1, some 5, none⟩, ⟨"sm", some 2, some 4, none⟩] := by
  decide

/-- Claim C8 (confirmed): `topAreas` equals the distinct area tags ordered
by descending frequency with ties in first-seen order, truncated to the top
10 — the stable code sort coincides with the spec's (frequency descending,
first-insertion ascending) lexicographic ordering — and the example
`[a,b,a,c,b,a]` yields `[a,b,c]`. -/
theorem topAreas_spec :
    (∀ tags : List String, topAreas tags = specTopAreas tags)
    ∧ topAreas ["a", "b", "a", "c", "b", "a"] = ["a", "b", "c"] := by
  refine ⟨?_, by decide⟩
  intro tags
  rw [topAreas, specTopAreas, sortedAreas, sortDesc, specSortLex]
  congr 1
  have h := foldl_insLex_map_snd (areaCounts tags) 0 [] (by simp)
  have h2 : (List.foldl (fun acc x => insLex x acc) [] (areaCounts tags).enum).map
        (fun e => e.2.1)
      = ((List.foldl (fun acc x => insLex x acc) [] (areaCounts tags).enum).map
          Prod.snd).map Prod.fst := by
    rw [List.map_map]
    rfl
  rw [h2, show (areaCounts tags).enum = List.enumFrom 0 (areaCounts tags) from rfl, h]
  rfl

/-- Counterexample for C9 as stated: with the cap binding, swapping the
branch enumeration order changes which commit is collected, so the result is
not independent of branch enumeration order. -/
theorem collectAny_order_cex :
    collectAny true 1 [[⟨"s1", some 1, some 10, none⟩], [⟨"s2", some 1, some 10, none⟩]]
      ≠ collectAny true 1 [[⟨"s2", some 1, some 10, none⟩], [⟨"s1", some 1, some 10, none⟩]] := by
  decide

/-- Claim C9 (corrected): the `__ANY__` output is sorted by author timestamp
descending (falling back to the committer timestamp, then 0), but the result
is not in general independent of branch enumeration order — when the cap
binds (or timestamps tie) different enumeration orders give different
results. -/
theorem collectAny_sorted :
    ∀ (includeMerges : Bool) (maxCommits : Nat) (branchLists : List (List CommitRef)),
      List.Pairwise (fun a b => dateKey b ≤ dateKey a)
        (collectAny includeMerges maxCommits branchLists) := by
  intro incl max bls
  rw [collectAny]
  exact sorted_sortDesc dateKey _

end GCA
